import Mathlib

/-
Verification of the pygiro portfolio-reconstruction core.

The Python source is shallowly embedded:
* exact float arithmetic is modelled by `ℚ` (and `ℝ` where a square root or
  real power appears);
* pandas `NaN` cells are modelled by `Option` (`none` = missing);
* a fatal load error (an exception raised during parsing) is modelled by an
  `Option`-returning pipeline producing `none`.

Sections: string utilities, the line classifier, the raw-statement parser
(`_format_account_statement`), the portfolio builder (`_built_portfolio`),
and the analytics library (`time_series.py`).
-/

-- Allow the kernel to evaluate concrete rational arithmetic in examples.
unseal Rat.add Rat.mul Rat.sub Rat.inv

namespace PyGiro

/-! ## String utilities -/

/-- ASCII lower-casing of one character (`str.lower()`; every keyword in
the rule table is ASCII). -/
def lowerChar (c : Char) : Char :=
  if 'A' ≤ c ∧ c ≤ 'Z' then Char.ofNat (c.toNat + 32) else c

/-- `description.lower()` as a character list. -/
def lowerStr (s : String) : List Char := s.toList.map lowerChar

/-- Is the first list an initial segment of the second?  Used to model a
regex literal or Python substring test. -/
def leadsWith : List Char → List Char → Bool
  | [], _ => true
  | _ :: _, [] => false
  | a :: as, b :: bs => a == b && leadsWith as bs

/-- Does the second list contain the first as a contiguous substring?
Model of Python `needle in haystack`. -/
def containsSub (nd : List Char) : List Char → Bool
  | [] => leadsWith nd []
  | c :: t => leadsWith nd (c :: t) || containsSub nd t

/-! ## Line classifier (`Account._classify_line`, `utils/mappings.py`) -/

/-- The ordered rule table `LINE_TYPES` from `pygiro/utils/mappings.py`:
an ordered list of (category, keyword set) pairs.  The `other` entry has an
empty keyword set. -/
def LINE_TYPES : List (String × List String) := [
  ("deposit", ["ideal deposit", "sofort deposit"]),
  ("withdrawal", ["ideal withdrawal", "sofort withdrawal"]),
  ("fx", ["valuta debitering", "valuta creditering"]),
  ("sell", ["verkoop"]),
  ("buy", ["koop"]),
  ("dividend", ["dividend"]),
  ("interest", ["flatex interest income"]),
  ("rebate", ["verrekening promotie"]),
  ("cost", ["degiro transactiekosten", "degiro aansluitingskosten",
            "externe kosten", "stamp duty"]),
  ("other", [])
]

/-- Does a rule match a (lower-cased) description?  Model of
`any(keyword in description for keyword in keywords)`. -/
def ruleMatches (d : List Char) (r : String × List String) : Bool :=
  r.2.any (fun k => containsSub k.toList d)

/-- `Account._classify_line`: lower-case the description, return the first
rule whose keyword set has a substring match, else `"other"`. -/
def classifyLine (description : String) : String :=
  match LINE_TYPES.find? (ruleMatches (lowerStr description)) with
  | some r => r.1
  | none => "other"

/-! ## Raw ledger rows and the split-row repair
(`Account._format_account_statement`, lines 135-138) -/

/-- One raw CSV row, with the twelve columns of `STATEMENT_COLS`.
Every field is `Option String`: `none` is a pandas `NaN` cell. -/
structure RawLine where
  date : Option String
  time : Option String
  currencyDate : Option String
  name : Option String
  isin : Option String
  description : Option String
  fx : Option String
  mutation : Option String
  amount : Option String
  currency : Option String
  balance : Option String
  orderId : Option String
deriving DecidableEq

/-- `line.fillna("")`: replace every missing field by the empty string. -/
def fillRow (c : RawLine) : RawLine where
  date := some (c.date.getD "")
  time := some (c.time.getD "")
  currencyDate := some (c.currencyDate.getD "")
  name := some (c.name.getD "")
  isin := some (c.isin.getD "")
  description := some (c.description.getD "")
  fx := some (c.fx.getD "")
  mutation := some (c.mutation.getD "")
  amount := some (c.amount.getD "")
  currency := some (c.currency.getD "")
  balance := some (c.balance.getD "")
  orderId := some (c.orderId.getD "")

/-- pandas object-dtype `+` on two cells: missing on either side is masked
and stays missing, otherwise string concatenation. -/
def addField (t c : Option String) : Option String :=
  match t, c with
  | some s, some u => some (s ++ u)
  | _, _ => none

/-- `statement.iloc[idx - 1] += line.fillna("")`, field-wise. -/
def addRow (t c : RawLine) : RawLine where
  date := addField t.date c.date
  time := addField t.time c.time
  currencyDate := addField t.currencyDate c.currencyDate
  name := addField t.name c.name
  isin := addField t.isin c.isin
  description := addField t.description c.description
  fx := addField t.fx c.fx
  mutation := addField t.mutation c.mutation
  amount := addField t.amount c.amount
  currency := addField t.currency c.currency
  balance := addField t.balance c.balance
  orderId := addField t.orderId c.orderId

/-- Pair each row with its positional index, starting at `n`. -/
def idxFrom (n : ℕ) : List RawLine → List (ℕ × RawLine)
  | [] => []
  | r :: rs => (n, r) :: idxFrom (n + 1) rs

/-- The snapshot `statement[statement.date.isna()]` taken before the repair
loop runs: the (index, row) pairs whose date cell is missing. -/
def contRows (rows : List RawLine) : List (ℕ × RawLine) :=
  (idxFrom 0 rows).filter (fun p => p.2.date.isNone)

/-- Replace the element at position `n` by `f` of it (no-op out of range). -/
def modAt {α : Type} (f : α → α) : ℕ → List α → List α
  | _, [] => []
  | 0, x :: xs => f x :: xs
  | n + 1, x :: xs => x :: modAt f n xs

/-- One iteration of the repair loop: add the (pre-snapshot) continuation
row onto the row at position `idx - 1`.  `iloc` with index `-1` (when the
very first row is a continuation) wraps around to the last row. -/
def repairStep (rows : List RawLine) (p : ℕ × RawLine) : List RawLine :=
  modAt (fun r => addRow r (fillRow p.2)) (if p.1 = 0 then rows.length - 1 else p.1 - 1) rows

/-- The split-row repair: run the loop over the snapshot of date-less rows,
then `dropna(subset=["date"])`. -/
def repairRows (rows : List RawLine) : List RawLine :=
  ((contRows rows).foldl repairStep rows).filter (fun r => r.date.isSome)

/-! ## Field parsers (timestamps, decimal-comma numbers) -/

/-- Numeric value of a digit string. -/
def digitsVal (ds : List Char) : ℕ :=
  ds.foldl (fun a c => 10 * a + (c.toNat - 48)) 0

/-- Read a run of 1 to `maxLen` digits whose value lies in `[lo, hi]`;
return the value and the remaining input. -/
def takeNum (lo hi maxLen : ℕ) (cs : List Char) : Option (ℕ × List Char) :=
  let ds := cs.takeWhile Char.isDigit
  if ds.length = 0 ∨ maxLen < ds.length then none
  else if digitsVal ds < lo ∨ hi < digitsVal ds then none
  else some (digitsVal ds, cs.dropWhile Char.isDigit)

/-- Require a specific character next. -/
def expectChar (c : Char) : List Char → Option (List Char)
  | [] => none
  | x :: xs => if x = c then some xs else none

/-- `pd.to_datetime(_, format="%d-%m-%Y %H:%M")` as a sortable key;
`none` models the fatal parse failure. -/
def parseTimestamp (s : String) : Option ℕ := do
  let (d, cs) ← takeNum 1 31 2 s.toList
  let cs ← expectChar '-' cs
  let (m, cs) ← takeNum 1 12 2 cs
  let cs ← expectChar '-' cs
  let (y, cs) ← takeNum 0 9999 4 cs
  let cs ← expectChar ' ' cs
  let (hh, cs) ← takeNum 0 23 2 cs
  let cs ← expectChar ':' cs
  let (mm, cs) ← takeNum 0 59 2 cs
  if cs = [] then some (((((y * 12 + m) * 32 + d) * 24 + hh) * 60) + mm) else none

/-- `pd.to_datetime(_, format="%d-%m-%Y")` as a day key. -/
def parseDateOnly (s : String) : Option ℕ := do
  let (d, cs) ← takeNum 1 31 2 s.toList
  let cs ← expectChar '-' cs
  let (m, cs) ← takeNum 1 12 2 cs
  let cs ← expectChar '-' cs
  let (y, cs) ← takeNum 0 9999 4 cs
  if cs = [] then some ((y * 12 + m) * 32 + d) else none

/-- `.replace({",": "."}, regex=True)` on one cell. -/
def commaToDot (s : String) : String :=
  String.mk (s.toList.map (fun c => if c = ',' then '.' else c))

/-- Python `float(...)` on a decimal-point string: optional sign, digits,
at most one dot, at least one digit.  `none` models the raised ValueError. -/
def parsePyFloat (s : String) : Option ℚ :=
  let body : List Char → Option ℚ := fun cs =>
    match cs.splitOn '.' with
    | [ip] => if ip ≠ [] ∧ ip.all Char.isDigit then some ((digitsVal ip : ℚ)) else none
    | [ip, fp] =>
        if (ip ++ fp) ≠ [] ∧ ip.all Char.isDigit ∧ fp.all Char.isDigit then
          some ((digitsVal ip : ℚ) + (digitsVal fp : ℚ) / (10 : ℚ) ^ fp.length)
        else none
    | _ => none
  match s.toList with
  | '-' :: t => (body t).map (fun q => -q)
  | '+' :: t => body t
  | cs => body cs

/-! ## Share and price extraction (regexes on the description) -/

/-- Attempt the regex `(?:Koop|Verkoop)\s+(\d+)` anchored at the head of
the input: a literal `Koop` or `Verkoop`, one or more whitespace
characters, then a maximal digit run (the captured quantity). -/
def sharesAt (cs : List Char) : Option ℕ :=
  let rest : Option (List Char) :=
    if leadsWith "Koop".toList cs then some (cs.drop 4)
    else if leadsWith "Verkoop".toList cs then some (cs.drop 7)
    else none
  match rest with
  | none => none
  | some r =>
    let ws := r.takeWhile (fun c => c.isWhitespace)
    let r2 := r.dropWhile (fun c => c.isWhitespace)
    let ds := r2.takeWhile Char.isDigit
    if ws ≠ [] ∧ ds ≠ [] then some (digitsVal ds) else none

/-- `str.extract(r"(?:Koop|Verkoop)\s+(\d+)")`: first matching position
scanning left to right; `none` when the regex never matches (NaN cell). -/
def extractShares : List Char → Option ℕ
  | [] => none
  | c :: t =>
    match sharesAt (c :: t) with
    | some n => some n
    | none => extractShares t

/-- Character class `[\d.,]` of the price regex. -/
def isPriceChar (c : Char) : Bool := c.isDigit || c == '.' || c == ','

/-- Attempt the regex `@\s*([\d.,]+)` anchored at the head of the input. -/
def priceAt : List Char → Option (List Char)
  | '@' :: r =>
    let r2 := r.dropWhile (fun c => c.isWhitespace)
    let tok := r2.takeWhile isPriceChar
    if tok ≠ [] then some tok else none
  | _ => none

/-- `str.extract(r"@\s*([\d.,]+)")`: first matching position scanning left
to right; `none` when the regex never matches (NaN cell). -/
def extractPriceTok : List Char → Option (List Char)
  | [] => none
  | c :: t =>
    match priceAt (c :: t) with
    | some tok => some tok
    | none => extractPriceTok t

/-! ## The formatted statement (`Account._format_account_statement`) -/

/-- One formatted statement row.  `fx`, `amount`, `balance` are the parsed
`NUMERIC_COLS` (the `mutation` column is deliberately left unparsed, as in
the source); `shares` and `price` are the regex extractions. -/
structure FmtLine where
  tsKey : ℕ
  date : ℕ
  currencyDate : Option String
  name : Option String
  isin : Option String
  description : Option String
  fx : Option ℚ
  mutation : Option String
  amount : Option ℚ
  currency : Option String
  balance : Option ℚ
  orderId : Option String
  lineType : String
  shares : Option ℚ
  price : Option ℚ
deriving DecidableEq

/-- Python `str(...)` on a cell: a missing cell prints as `"nan"`. -/
def toPyStr : Option String → String
  | none => "nan"
  | some s => s

/-- Parse one numeric cell: a missing cell stays missing (NaN is preserved
by `astype(float)`), a present cell must parse or the load fails. -/
def parseNumField (f : Option String) : Option (Option ℚ) :=
  match f with
  | none => some none
  | some s =>
    match parsePyFloat (commaToDot s) with
    | some q => some (some q)
    | none => none

/-- Build one `FmtLine` from a repaired raw row: timestamp construction,
numeric parsing, classification, share/price extraction.  A `none` result
models a fatal parse error aborting the load. -/
def rowToFmt (r : RawLine) : Option FmtLine := do
  let dstr ← r.date
  let tstr ← r.time
  let k ← parseTimestamp (dstr ++ " " ++ tstr)
  let dk ← parseDateOnly dstr
  let fx ← parseNumField r.fx
  let amount ← parseNumField r.amount
  let balance ← parseNumField r.balance
  let ty := classifyLine (toPyStr r.description)
  let shares0 := (match r.description with
    | none => none
    | some ds => extractShares ds.toList).map (fun n => (n : ℚ))
  let shares := if ty = "sell" then shares0.map (fun x => -x) else shares0
  let price ← (match r.description with
    | none => some none
    | some ds =>
      match extractPriceTok ds.toList with
      | none => some none
      | some tok =>
        match parsePyFloat (commaToDot (String.mk tok)) with
        | some q => some (some q)
        | none => none)
  pure ⟨k, dk, r.currencyDate, r.name, r.isin, r.description, fx, r.mutation,
        amount, r.currency, balance, r.orderId, ty, shares, price⟩

/-- Insert a row into a tsKey-sorted list, after all rows with key ≤ its
own (stable ascending insertion). -/
def insertByKey (x : FmtLine) : List FmtLine → List FmtLine
  | [] => [x]
  | y :: ys => if y.tsKey ≤ x.tsKey then y :: insertByKey x ys else x :: y :: ys

/-- `sort_index` on the timestamp key. -/
def sortByKey (l : List FmtLine) : List FmtLine := l.foldr insertByKey []

/-- Build every repaired row, failing if any row fails. -/
def rowsToFmt : List RawLine → Option (List FmtLine)
  | [] => some []
  | r :: rs => do
    let l ← rowToFmt r
    let t ← rowsToFmt rs
    pure (l :: t)

/-- `Account._format_account_statement`: repair split rows, build and sort
by the timestamp, parse numbers, classify, extract shares/prices, and drop
the rows classified `other`.  `none` models a fatal load failure. -/
def formatStatement (raw : List RawLine) : Option (List FmtLine) := do
  let parsed ← rowsToFmt (repairRows raw)
  pure ((sortByKey parsed).filter (fun l => !(l.lineType == "other")))

/-! ## Portfolio builder (`Account._built_portfolio`) -/

/-- A classified statement line as consumed by the portfolio builder:
calendar-day key, currency, ISIN, net cash amount, signed shares
(already negated for sells) and the classified type. -/
structure TLine where
  date : ℕ
  currency : String
  isin : String
  amount : ℚ
  shares : ℚ
  lineType : String
deriving DecidableEq

/-- Are the statement dates in ascending order (the statement is sorted by
timestamp before the builder runs)? -/
def datesSorted : List TLine → Bool
  | [] => true
  | [_] => true
  | a :: b :: t => decide (a.date ≤ b.date) && datesSorted (b :: t)

/-- The running `(holdings, investment)` accumulators, as total maps from
asset identifier to quantity (a `defaultdict(float)` starts every key
at `0`). -/
def BState : Type := (String → ℚ) × (String → ℚ)

/-- Point update of an accumulator map. -/
def updF (h : String → ℚ) (k : String) (v : ℚ) : String → ℚ :=
  fun a => if a = k then v else h a

/-- Is the line a buy or a sell? -/
def isTrade (l : TLine) : Bool := l.lineType == "buy" || l.lineType == "sell"

/-- Apply one statement line to the running state: add the cash amount to
`holdings[currency]` and `investment[currency]`; for buy/sell lines also
add the signed shares to `holdings[ISIN]` and subtract the cash amount
from `investment[ISIN]`. -/
def applyLine (st : BState) (l : TLine) : BState :=
  let h := updF st.1 l.currency (st.1 l.currency + l.amount)
  let inv := updF st.2 l.currency (st.2 l.currency + l.amount)
  if isTrade l then
    (updF h l.isin (h l.isin + l.shares), updF inv l.isin (inv l.isin - l.amount))
  else
    (h, inv)

/-- Both accumulators start at zero. -/
def initBState : BState := (fun _ => 0, fun _ => 0)

/-- `statement.groupby("date")` on a timestamp-sorted statement: maximal
runs of equal consecutive dates, in order. -/
def groupByDate : List TLine → List (ℕ × List TLine)
  | [] => []
  | l :: ls =>
    match groupByDate ls with
    | [] => [(l.date, [l])]
    | (d, g) :: rest =>
      if l.date = d then (d, l :: g) :: rest else (l.date, [l]) :: (d, g) :: rest

/-- Flatten a grouped statement back into its lines. -/
def joinGroups (gs : List (ℕ × List TLine)) : List TLine :=
  (gs.map (fun g => g.2)).flatten

/-- Fold the date groups in order, snapshotting the cumulative state after
each date (`holdings[date] = current_holdings.copy()`). -/
def snapshotsFrom (st : BState) : List (ℕ × List TLine) → List (ℕ × BState)
  | [] => []
  | (d, g) :: rest =>
    let st' := g.foldl applyLine st
    (d, st') :: snapshotsFrom st' rest

/-- The per-date snapshots of the builder. -/
def builtSnapshots (lines : List TLine) : List (ℕ × BState) :=
  snapshotsFrom initBState (groupByDate lines)

/-- The final (latest-date) holdings map of the built portfolio. -/
def finalHoldings (lines : List TLine) : String → ℚ :=
  match (builtSnapshots lines).getLast? with
  | some s => s.2.1
  | none => fun _ => 0

/-- Cash delta a single line contributes to asset `a`. -/
def cashDelta (l : TLine) (a : String) : ℚ :=
  if l.currency = a then l.amount else 0

/-- Share delta a single line contributes to asset `a`. -/
def shareDelta (l : TLine) (a : String) : ℚ :=
  if isTrade l ∧ l.isin = a then l.shares else 0

/-- Directly summing the signed cash/share deltas over the whole statement
in one pass (the specification-side total). -/
def directTotal (lines : List TLine) (a : String) : ℚ :=
  (lines.map (fun l => cashDelta l a + shareDelta l a)).sum

/-! ### Daily reindex, forward fill and zero-drop
(`Account._built_portfolio`, lines 236-240) -/

/-- The last element of a snapshot list (in list order) whose date is
`≤ d`: the source of a forward-filled value on calendar day `d`. -/
def lastLE (d : ℕ) : List (ℕ × BState) → Option (ℕ × BState)
  | [] => none
  | s :: rest =>
    match lastLE d rest with
    | some r => some r
    | none => if s.1 ≤ d then some s else none

/-- Does a line touch asset `a` (create its accumulator key)? -/
def touches (l : TLine) (a : String) : Bool :=
  (l.currency == a) || (isTrade l && l.isin == a)

/-- Has any line dated `≤ d` touched asset `a`?  Models membership of `a`
in the keys of the snapshot taken on the last transaction date `≤ d`. -/
def touchedBy (lines : List TLine) (d : ℕ) (a : String) : Bool :=
  lines.any (fun l => decide (l.date ≤ d) && touches l a)

/-- The forward-filled holding of asset `a` on calendar day `d`: the value
in the latest snapshot dated `≤ d`, provided the asset has a key there;
`none` models a NaN cell (asset not yet seen). -/
def ffillHolding (lines : List TLine) (d : ℕ) (a : String) : Option ℚ :=
  match lastLE d (builtSnapshots lines) with
  | none => none
  | some s => if touchedBy lines s.1 a then some (s.2.1 a) else none

/-- The first transaction date (`statement.date.iloc[0]`), start of the
daily calendar. -/
def firstDate : List TLine → ℕ
  | [] => 0
  | l :: _ => l.date

/-- Does the final portfolio contain a row for `(d, a)`?  The calendar
runs from the first transaction date through `yesterday`; rows whose
forward-filled holding is missing or exactly zero are dropped. -/
def inPortfolio (lines : List TLine) (yesterday d : ℕ) (a : String) : Bool :=
  decide (firstDate lines ≤ d) && decide (d ≤ yesterday) &&
    (match ffillHolding lines d a with
     | some v => decide (v ≠ 0)
     | none => false)

/-! ## Analytics (`pygiro/analytics/time_series.py`) -/

/-- `series.mean()`. -/
def qmean (s : List ℚ) : ℚ := s.sum / s.length

/-- `total_return`: `(1.0 + series).prod() - 1.0`. -/
def total_return (s : List ℚ) : ℚ := (s.map (fun r => 1 + r)).prod - 1

/-- `cagr`: `(1 + series).prod() ** (ann_freq / len(series)) - 1` when the
series is nonempty, the NaN sentinel (`none`) otherwise. -/
noncomputable def cagr (s : List ℚ) (ann_freq : ℕ) : Option ℝ :=
  if 0 < s.length then
    some ((((s.map (fun r => 1 + r)).prod : ℚ) : ℝ) ^ ((ann_freq : ℝ) / (s.length : ℝ)) - 1)
  else none

/-- Sample variance with `ddof=1`. -/
def svar (s : List ℚ) : ℚ :=
  (s.map (fun x => (x - qmean s) ^ 2)).sum / ((s.length : ℚ) - 1)

/-- `series.std(ddof=1)`. -/
noncomputable def sampleStd (s : List ℚ) : ℝ := Real.sqrt ((svar s : ℚ))

/-- `tstat`: `mean / std(ddof=1) * len ** 0.5` for a nonempty series, the
NaN sentinel otherwise. -/
noncomputable def tstat (s : List ℚ) : Option ℝ :=
  if 0 < s.length then
    some ((qmean s : ℝ) / sampleStd s * Real.sqrt (s.length : ℝ))
  else none

/-! ### Drawdowns -/

/-- Running cumulative products (`Series.cumprod` applied to an already
shifted series). -/
def cumprodAux (acc : ℚ) : List ℚ → List ℚ
  | [] => []
  | x :: xs => (acc * x) :: cumprodAux (acc * x) xs

/-- `(1 + series).cumprod()`. -/
def cumprod (s : List ℚ) : List ℚ := cumprodAux 1 (s.map (fun r => 1 + r))

/-- Running maximum continuation. -/
def cummaxAux (acc : ℚ) : List ℚ → List ℚ
  | [] => []
  | x :: xs => (max acc x) :: cummaxAux (max acc x) xs

/-- `Series.cummax`. -/
def cummax : List ℚ → List ℚ
  | [] => []
  | x :: xs => x :: cummaxAux x xs

/-- The drawdown path `(cumulative - peak) / peak`. -/
def drawdowns (s : List ℚ) : List ℚ :=
  List.zipWith (fun c p => (c - p) / p) (cumprod s) (cummax (cumprod s))

/-- `Series.min()`: `none` on the empty series (NaN). -/
def listMin : List ℚ → Option ℚ
  | [] => none
  | x :: xs => some (xs.foldl min x)

/-- `max_drawdown`: the minimum of the drawdown path, with the NaN
sentinel replacing an exact zero (and the empty-series NaN minimum). -/
def max_drawdown (s : List ℚ) : Option ℚ :=
  match listMin (drawdowns s) with
  | none => none
  | some m => if m = 0 then none else some m

/-- Closed-form cumulative product: `∏_{j ≤ i} (1 + r_j)`. -/
def cpSpec (s : List ℚ) (i : ℕ) : ℚ :=
  ∏ j ∈ Finset.range (i + 1), (1 + s.getD j 0)

/-- Running maximum of an indexed family. -/
def prefMax (g : ℕ → ℚ) : ℕ → ℚ
  | 0 => g 0
  | i + 1 => max (prefMax g i) (g (i + 1))

/-- Closed-form running peak: the running maximum of `cpSpec`. -/
def pkSpec (s : List ℚ) : ℕ → ℚ := prefMax (cpSpec s)

/-! ### Sortino -/

/-- `series[series < 0]`. -/
def negPart (s : List ℚ) : List ℚ := s.filter (fun x => decide (x < 0))

/-- `sortino`: NaN sentinel when the series is empty or has no negative
observation, otherwise mean over the downside-deviation-style denominator
times `√ann_freq`. -/
noncomputable def sortino (s : List ℚ) (ann_freq : ℕ) : Option ℝ :=
  if s.length < 1 ∨ (negPart s).length = 0 then none
  else
    some ((qmean s : ℝ) /
      Real.sqrt ((((negPart s).map (fun x => x ^ 2)).sum / ((s.length : ℚ) - 1) : ℚ)) *
      Real.sqrt (ann_freq : ℝ))

/-- Sum of squared negative returns written as one conditional pass over
the whole series (specification side). -/
def downSq (s : List ℚ) : ℚ :=
  (s.map (fun x => if x < 0 then x ^ 2 else 0)).sum

/-! ### Newey-West estimators -/

/-- The residual `r_t - μ` (out-of-range indices read as 0; they are never
used in range). -/
def residAt (s : List ℚ) (t : ℕ) : ℚ := s.getD t 0 - qmean s

/-- Bartlett kernel weight: `κ_0 = 1`, `κ_ℓ = 2(1 - ℓ/(L+1))` for `ℓ > 0`. -/
def bartlett (L l : ℕ) : ℚ :=
  if l = 0 then 1 else 2 * (1 - (l : ℚ) / ((L : ℚ) + 1))

/-- The double accumulation loop of `nw_std`:
`for l in range(L+1): for t in range(l, T): nw_var += weight * resid[t] * resid[t-l]`. -/
def nwVarLoop (s : List ℚ) (L : ℕ) : ℚ :=
  (List.range (L + 1)).foldl
    (fun acc l =>
      (List.range' l (s.length - l)).foldl
        (fun a t => a + bartlett L l * residAt s t * residAt s (t - l)) acc)
    0

/-- Automatic truncation lag `L = ceil(4 * (T/100) ** (2/9))`. -/
noncomputable def nwLag (T : ℕ) : ℕ :=
  ⌈(4 : ℝ) * ((T : ℝ) / 100) ^ ((2 : ℝ) / 9)⌉₊

/-- `nw_std`: `((nw_var / (T - ddof)) * ann_freq) ** 0.5`. -/
noncomputable def nw_std (s : List ℚ) (ann_freq : ℕ) (ddof : ℕ) : ℝ :=
  Real.sqrt (((nwVarLoop s (nwLag s.length) / ((s.length : ℚ) - (ddof : ℚ))) * (ann_freq : ℚ) : ℚ))

/-- `nw_tstat`: `mean / nw_std(series, ann_freq=1, ddof) * len ** 0.5`. -/
noncomputable def nw_tstat (s : List ℚ) (ddof : ℕ) : ℝ :=
  (qmean s : ℝ) / nw_std s 1 ddof * Real.sqrt (s.length : ℝ)

/-- The Newey-West variance as the closed double sum of the spec:
`Σ_{ℓ=0}^{L} κ_ℓ Σ_{t=ℓ}^{T-1} (r_t - μ)(r_{t-ℓ} - μ)`. -/
def nwVarSpec (s : List ℚ) (L : ℕ) : ℚ :=
  ∑ l ∈ Finset.range (L + 1),
    bartlett L l * ∑ t ∈ Finset.Ico l s.length, residAt s t * residAt s (t - l)

/-! ## Concrete example inputs used by counterexamples and witnesses -/

/-- A complete raw buy row. -/
def exFullRow : RawLine :=
  ⟨some "02-01-2024", some "10:00", some "02-01-2024", some "VANGUARD", some "IE00B3RBWM25",
   some "A", some "1,0", some "EUR", some "-425,05", some "EUR", some "74,95", some "oid1"⟩

/-- A continuation row carrying only description text `"B"`. -/
def exContB : RawLine :=
  ⟨none, none, none, none, none, some "B", none, none, none, none, none, none⟩

/-- A second consecutive continuation row carrying description text `"C"`. -/
def exContC : RawLine :=
  ⟨none, none, none, none, none, some "C", none, none, none, none, none, none⟩

/-- A ledger in which one logical row is split over three physical rows. -/
def exC3 : List RawLine := [exFullRow, exContB, exContC]

/-- A raw deposit row. -/
def exDepositRow : RawLine :=
  ⟨some "02-01-2024", some "10:00", some "02-01-2024", none, none,
   some "iDEAL Deposit", none, none, some "500,00", some "EUR", some "500,00", none⟩

/-- A raw row whose description matches no classifier keyword. -/
def exOtherRow : RawLine :=
  ⟨some "03-01-2024", some "11:00", some "03-01-2024", none, none,
   some "Some Unknown Thing", none, none, some "1,00", some "EUR", some "501,00", none⟩

/-- A ledger with one deposit row and one unclassifiable row. -/
def exC2 : List RawLine := [exDepositRow, exOtherRow]

/-- A raw buy row whose description has a price token after `@` but no
digit quantity after `Koop`. -/
def exBuyNoQty : RawLine :=
  ⟨some "02-01-2024", some "10:00", some "02-01-2024", some "VANGUARD", some "IE00B3RBWM25",
   some "Koop Vanguard FTSE All-World @ 85,01", none, none, some "-425,05", some "EUR",
   some "74,95", some "oid1"⟩

/-- A ledger with a single buy row lacking an extractable quantity. -/
def exC7 : List RawLine := [exBuyNoQty]

/-- The formatted row the parser produces for `exBuyNoQty`: classified
`buy`, shares missing (the quantity regex finds no digits), price parsed
from the `@` token. -/
def exC7Line : FmtLine :=
  ⟨1119240600, 777250, some "02-01-2024", some "VANGUARD", some "IE00B3RBWM25",
   some "Koop Vanguard FTSE All-World @ 85,01", none, none, some (-(8501 / 20 : ℚ)),
   some "EUR", some (1499 / 20 : ℚ), some "oid1", "buy", none, some (8501 / 100 : ℚ)⟩

/-- A classified statement that buys 10 shares of `X`, sells them all the
next day, and re-buys 5 the day after. -/
def exC5 : List TLine :=
  [⟨0, "EUR", "X", -500, 10, "buy"⟩, ⟨1, "EUR", "X", 500, -10, "sell"⟩,
   ⟨2, "EUR", "X", -250, 5, "buy"⟩]

/-! # Theorems -/

/-- `List.find?` returns the element at the first index whose predicate
holds, when all earlier indices fail. -/
theorem find?_getD_of_first {α : Type} (p : α → Bool) (dflt : α) :
    ∀ (l : List α) (i : ℕ), i < l.length → p (l.getD i dflt) = true →
      (∀ j, j < i → p (l.getD j dflt) = false) →
      l.find? p = some (l.getD i dflt) := by
  intro l
  induction l with
  | nil => intro i hi; simp at hi
  | cons a t ih =>
    intro i hi hp hbefore
    cases i with
    | zero =>
      simp only [List.getD_cons_zero] at hp
      simp [List.find?, hp]
    | succ n =>
      have ha : p a = false := by
        have := hbefore 0 (Nat.succ_pos n)
        simpa using this
      simp only [List.getD_cons_succ] at hp ⊢
      rw [List.find?_cons, ha]
      exact ih n (by simpa using hi) hp
        (fun j hj => by simpa using hbefore (j + 1) (by omega))

/-- C4: the line classifier is a pure function of the description; the
rules of `LINE_TYPES` are tried in their fixed priority order and the
first rule with a case-insensitive substring match wins (in particular
`"Verkoop …"` classifies as `sell` although it also contains `koop`), and
a description matching no keyword yields `other`. -/
theorem classifier_first_match_wins :
    (∀ d : String, (∀ r ∈ LINE_TYPES, ruleMatches (lowerStr d) r = false) →
      classifyLine d = "other")
  ∧ (∀ (d : String) (i : ℕ), i < LINE_TYPES.length →
      ruleMatches (lowerStr d) (LINE_TYPES.getD i ("other", [])) = true →
      (∀ j, j < i → ruleMatches (lowerStr d) (LINE_TYPES.getD j ("other", [])) = false) →
      classifyLine d = (LINE_TYPES.getD i ("other", [])).1)
  ∧ classifyLine "Verkoop 10 Vanguard FTSE All-World@85,01" = "sell" := by
  refine ⟨?_, ?_, by decide⟩
  · intro d h
    unfold classifyLine
    rw [List.find?_eq_none.mpr (fun r hr => by simp [h r hr])]
  · intro d i hi hp hbefore
    unfold classifyLine
    rw [find?_getD_of_first _ _ _ i hi hp hbefore]

/-- Witness for C4: the `cost` rule (index 8) fires first on this
description. -/
theorem classifier_first_match_wins_witness :
    classifyLine "Degiro Aansluitingskosten" = "cost" := by
  have h := classifier_first_match_wins.2.1 "Degiro Aansluitingskosten" 8
    (by decide) (by decide) (fun j hj => by interval_cases j <;> decide)
  exact h

/-- C10: `total_return` of the empty series is exactly `0` (the empty
product of `(1 + r_i)` minus one) — plain `ℚ`, not a sentinel — while
`cagr` and `tstat` return the NaN sentinel on the empty series. -/
theorem total_return_empty_zero :
    total_return [] = 0 ∧ (∀ a : ℕ, cagr [] a = none) ∧ tstat [] = none := by
  refine ⟨by simp [total_return], fun a => by simp [cagr], by simp [tstat]⟩

/-- The filtered sum of squared negatives equals the one-pass conditional
sum. -/
theorem sum_sq_negPart (s : List ℚ) :
    ((negPart s).map (fun x => x ^ 2)).sum = downSq s := by
  induction s with
  | nil => rfl
  | cons x t ih =>
    simp only [negPart, downSq, List.filter_cons, List.map_cons, List.sum_cons] at *
    by_cases hx : x < 0
    · simp [hx, ih]
    · simp [hx, ih]

/-- C9: `sortino` returns the NaN sentinel whenever the series has no
negative observation (in particular for all-positive series), and for a
series with at least one negative observation it returns
`mean / √(Σ negatives² / (n − 1)) · √ann_freq`. -/
theorem sortino_spec (s : List ℚ) (a : ℕ) :
    ((∀ x ∈ s, 0 ≤ x) → sortino s a = none)
  ∧ ((∃ x ∈ s, x < 0) →
      sortino s a = some ((qmean s : ℝ) /
        Real.sqrt ((downSq s / ((s.length : ℚ) - 1) : ℚ)) * Real.sqrt (a : ℝ))) := by
  constructor
  · intro h
    have hnil : negPart s = [] := by
      simp only [negPart, List.filter_eq_nil_iff]
      intro x hx
      simpa using h x hx
    simp [sortino, hnil]
  · rintro ⟨x, hx, hneg⟩
    have hmem : x ∈ negPart s := by
      simp [negPart, List.mem_filter, hx, hneg]
    have hne : (negPart s).length ≠ 0 := by
      intro h0
      rw [List.length_eq_zero] at h0
      simp [h0] at hmem
    have hlen : ¬ s.length < 1 := by
      have : s ≠ [] := by rintro rfl; simp at hx
      have := List.length_pos.mpr this
      omega
    rw [sortino, if_neg (by push_neg; exact ⟨by omega, hne⟩)]
    rw [sum_sq_negPart]

/-- Witness for C9: an all-positive series yields the sentinel. -/
theorem sortino_spec_witness : sortino [(1 : ℚ)/2, 3] 252 = none :=
  (sortino_spec [(1 : ℚ)/2, 3] 252).1 (by decide)

/-! ### Drawdown lemmas (C6) -/

/-- Indexing into `cumprodAux`: position `i` holds the accumulator times
the product of the first `i + 1` elements. -/
theorem cumprodAux_getD (l : List ℚ) :
    ∀ (acc : ℚ) (i : ℕ), i < l.length →
      (cumprodAux acc l).getD i 0 = acc * ∏ j ∈ Finset.range (i + 1), l.getD j 0 := by
  induction l with
  | nil => intro acc i hi; simp at hi
  | cons x xs ih =>
    intro acc i hi
    cases i with
    | zero => simp [cumprodAux, Finset.prod_range_one]
    | succ n =>
      simp only [cumprodAux, List.getD_cons_succ]
      rw [ih (acc * x) n (by simpa using hi)]
      rw [Finset.prod_range_succ' (fun j => (x :: xs).getD j 0) (n + 1)]
      simp only [List.getD_cons_succ, List.getD_cons_zero]
      ring

theorem cumprodAux_length (l : List ℚ) : ∀ acc, (cumprodAux acc l).length = l.length := by
  induction l with
  | nil => intro acc; rfl
  | cons x xs ih => intro acc; simp [cumprodAux, ih]

theorem cumprod_length (s : List ℚ) : (cumprod s).length = s.length := by
  simp [cumprod, cumprodAux_length]

/-- Indexing into `cumprod` gives the closed-form cumulative product. -/
theorem cumprod_getD (s : List ℚ) (i : ℕ) (hi : i < s.length) :
    (cumprod s).getD i 0 = cpSpec s i := by
  unfold cumprod cpSpec
  rw [cumprodAux_getD _ 1 i (by simpa using hi), one_mul]
  refine Finset.prod_congr rfl (fun j hj => ?_)
  have hj' : j < s.length := by
    have := Finset.mem_range.mp hj
    omega
  rw [List.getD_eq_getElem?_getD, List.getElem?_map,
      List.getElem?_eq_getElem hj']
  simp [List.getD_eq_getElem?_getD, List.getElem?_eq_getElem hj']

theorem prefMax_shift (g : ℕ → ℚ) :
    ∀ i, prefMax g (i + 1) = max (g 0) (prefMax (fun j => g (j + 1)) i) := by
  intro i
  induction i with
  | zero => simp [prefMax]
  | succ n ih =>
    show max (prefMax g (n + 1)) (g (n + 2)) = _
    rw [ih]
    simp [prefMax, max_assoc]

theorem cummaxAux_length (l : List ℚ) : ∀ acc, (cummaxAux acc l).length = l.length := by
  induction l with
  | nil => intro acc; rfl
  | cons x xs ih => intro acc; simp [cummaxAux, ih]

theorem cummax_length (l : List ℚ) : (cummax l).length = l.length := by
  cases l with
  | nil => rfl
  | cons x xs => simp [cummax, cummaxAux_length]

theorem cummaxAux_getD :
    ∀ (c : List ℚ) (acc : ℚ) (g : ℕ → ℚ),
      (∀ j, j < c.length → c.getD j 0 = g j) →
      ∀ i, i < c.length → (cummaxAux acc c).getD i 0 = max acc (prefMax g i) := by
  intro c
  induction c with
  | nil => intro acc g hg i hi; simp at hi
  | cons x xs ih =>
    intro acc g hg i hi
    have h0 : x = g 0 := by simpa using hg 0 (by simp)
    cases i with
    | zero => simp [cummaxAux, prefMax, ← h0]
    | succ n =>
      simp only [cummaxAux, List.getD_cons_succ]
      rw [ih (max acc x) (fun j => g (j + 1))
          (fun j hj => by simpa using hg (j + 1) (by simpa using hj))
          n (by simpa using hi)]
      rw [prefMax_shift, ← h0, max_assoc]

/-- Indexing into `cummax`: position `i` holds the running maximum. -/
theorem cummax_getD (c : List ℚ) (g : ℕ → ℚ)
    (hg : ∀ j, j < c.length → c.getD j 0 = g j) :
    ∀ i, i < c.length → (cummax c).getD i 0 = prefMax g i := by
  intro i hi
  cases c with
  | nil => simp at hi
  | cons x xs =>
    have h0 : x = g 0 := by simpa using hg 0 (by simp)
    cases i with
    | zero => simpa [cummax, prefMax] using h0
    | succ n =>
      simp only [cummax, List.getD_cons_succ]
      rw [cummaxAux_getD xs x (fun j => g (j + 1))
          (fun j hj => by simpa using hg (j + 1) (by simpa using hj))
          n (by simpa using hi)]
      rw [prefMax_shift, ← h0]

theorem zipWith_getD (f : ℚ → ℚ → ℚ) :
    ∀ (a b : List ℚ) (i : ℕ), i < a.length → i < b.length →
      (List.zipWith f a b).getD i 0 = f (a.getD i 0) (b.getD i 0) := by
  intro a
  induction a with
  | nil => intro b i hi; simp at hi
  | cons x xs ih =>
    intro b i hia hib
    cases b with
    | nil => simp at hib
    | cons y ys =>
      cases i with
      | zero => simp
      | succ n =>
        simp only [List.zipWith_cons_cons, List.getD_cons_succ]
        exact ih ys n (by simpa using hia) (by simpa using hib)

/-- The smallest element found by a `min` fold is a member of the list. -/
theorem foldlMin_mem : ∀ (xs : List ℚ) (x : ℚ), xs.foldl min x ∈ x :: xs := by
  intro xs
  induction xs with
  | nil => intro x; simp
  | cons y ys ih =>
    intro x
    have h := ih (min x y)
    simp only [List.foldl_cons]
    rcases List.mem_cons.mp h with h1 | h1
    · rcases min_choice x y with hc | hc
      · rw [h1, hc]; exact List.mem_cons_self _ _
      · rw [h1, hc]; simp
    · simp [h1]

theorem foldlMin_le_init : ∀ (xs : List ℚ) (x : ℚ), xs.foldl min x ≤ x := by
  intro xs
  induction xs with
  | nil => intro x; simp
  | cons y ys ih =>
    intro x
    simp only [List.foldl_cons]
    exact le_trans (ih (min x y)) (min_le_left x y)

theorem foldlMin_le_mem : ∀ (xs : List ℚ) (x d : ℚ), d ∈ xs → xs.foldl min x ≤ d := by
  intro xs
  induction xs with
  | nil => intro x d hd; simp at hd
  | cons y ys ih =>
    intro x d hd
    simp only [List.foldl_cons]
    rcases List.mem_cons.mp hd with rfl | hd2
    · exact le_trans (foldlMin_le_init ys (min x d)) (min_le_right x d)
    · exact ih (min x y) d hd2

/-- C6: the drawdown path of `max_drawdown` is exactly
`(cum - peak)/peak` with `cum` the running product of `(1 + r_i)` and
`peak` its running maximum; `max_drawdown` returns the minimum of that
path, except that an exact-zero minimum (a path that never fell below its
running peak) yields the NaN sentinel; on `[0.1, 0.2, -0.05]` it returns a
negative number. -/
theorem max_drawdown_spec :
    (∀ (s : List ℚ) (i : ℕ), i < s.length →
      (drawdowns s).getD i 0 = (cpSpec s i - pkSpec s i) / pkSpec s i)
  ∧ (∀ (s : List ℚ) (m : ℚ), listMin (drawdowns s) = some m →
      m ∈ drawdowns s ∧ (∀ d ∈ drawdowns s, m ≤ d)
        ∧ (m = 0 → max_drawdown s = none) ∧ (m ≠ 0 → max_drawdown s = some m))
  ∧ (∃ q : ℚ, q < 0 ∧ max_drawdown [1/10, 1/5, -(1/20)] = some q) := by
  refine ⟨?_, ?_, ⟨-(1/20), by norm_num, by decide⟩⟩
  · intro s i hi
    have hlen : (cumprod s).length = s.length := cumprod_length s
    have hi1 : i < (cumprod s).length := by omega
    have hi2 : i < (cummax (cumprod s)).length := by
      rw [cummax_length]; omega
    unfold drawdowns
    rw [zipWith_getD _ _ _ i hi1 hi2]
    rw [cumprod_getD s i hi]
    rw [cummax_getD (cumprod s) (cpSpec s)
        (fun j hj => cumprod_getD s j (by omega)) i hi1]
    rfl
  · intro s m hm
    cases hdd : drawdowns s with
    | nil => rw [hdd] at hm; simp [listMin] at hm
    | cons x xs =>
      rw [hdd] at hm
      simp only [listMin] at hm
      have hm' : xs.foldl min x = m := by injection hm
      have hkey : max_drawdown s = if m = 0 then none else some m := by
        unfold max_drawdown
        rw [hdd]
        simp only [listMin, hm']
      refine ⟨?_, ?_, ?_, ?_⟩
      · rw [← hm']; exact foldlMin_mem xs x
      · intro d hd
        rcases List.mem_cons.mp hd with rfl | hd2
        · rw [← hm']; exact foldlMin_le_init xs d
        · rw [← hm']; exact foldlMin_le_mem xs x d hd2
      · intro h0
        rw [hkey, if_pos h0]
      · intro h0
        rw [hkey, if_neg h0]

/-- Witness for C6: the drawdown entry at index 2 of the concrete series
follows the closed formula. -/
theorem max_drawdown_spec_witness :
    (drawdowns [1/10, 1/5, -(1/20)]).getD 2 0 =
      (cpSpec [1/10, 1/5, -(1/20)] 2 - pkSpec [1/10, 1/5, -(1/20)] 2) /
        pkSpec [1/10, 1/5, -(1/20)] 2 :=
  max_drawdown_spec.1 [1/10, 1/5, -(1/20)] 2 (by decide)

/-! ### Portfolio fold lemmas (C1) -/

theorem joinGroups_cons (d : ℕ) (g : List TLine) (rest : List (ℕ × List TLine)) :
    joinGroups ((d, g) :: rest) = g ++ joinGroups rest := by
  simp [joinGroups]

/-- Grouping by date and flattening recovers the statement. -/
theorem joinGroups_groupByDate : ∀ lines : List TLine, joinGroups (groupByDate lines) = lines := by
  intro lines
  induction lines with
  | nil => rfl
  | cons l ls ih =>
    have heq : groupByDate (l :: ls) =
        match groupByDate ls with
        | [] => [(l.date, [l])]
        | (d, g) :: rest =>
          if l.date = d then (d, l :: g) :: rest else (l.date, [l]) :: (d, g) :: rest := rfl
    rw [heq]
    cases hg : groupByDate ls with
    | nil =>
      have h0 : ls = [] := by rw [← ih, hg]; rfl
      subst h0
      simp [joinGroups]
    | cons g rest =>
      obtain ⟨d, grp⟩ := g
      rw [hg] at ih
      rw [joinGroups_cons] at ih
      show joinGroups (if l.date = d then (d, l :: grp) :: rest
        else (l.date, [l]) :: (d, grp) :: rest) = l :: ls
      by_cases hd : l.date = d
      · rw [if_pos hd, joinGroups_cons, List.cons_append, ih]
      · rw [if_neg hd, joinGroups_cons, joinGroups_cons]
        simp [ih]

/-- The last snapshot of the builder is the fold of all grouped lines. -/
theorem snapshotsFrom_getLast :
    ∀ (gs : List (ℕ × List TLine)) (st : BState), gs ≠ [] →
      ∃ d, (snapshotsFrom st gs).getLast? = some (d, (joinGroups gs).foldl applyLine st) := by
  intro gs
  induction gs with
  | nil => intro st h; exact absurd rfl h
  | cons g rest ih =>
    intro st _
    obtain ⟨d, grp⟩ := g
    cases rest with
    | nil =>
      refine ⟨d, ?_⟩
      show [(d, grp.foldl applyLine st)].getLast? = _
      rw [joinGroups_cons]
      simp [joinGroups, List.foldl_append]
    | cons g2 rest2 =>
      obtain ⟨d2, hlast⟩ := ih (grp.foldl applyLine st) (by simp)
      refine ⟨d2, ?_⟩
      obtain ⟨dg2, grp2⟩ := g2
      show ((d, grp.foldl applyLine st) ::
          snapshotsFrom (grp.foldl applyLine st) ((dg2, grp2) :: rest2)).getLast? = _
      have hform : snapshotsFrom (grp.foldl applyLine st) ((dg2, grp2) :: rest2) =
          (dg2, grp2.foldl applyLine (grp.foldl applyLine st)) ::
            snapshotsFrom (grp2.foldl applyLine (grp.foldl applyLine st)) rest2 := rfl
      rw [hform, List.getLast?_cons_cons, ← hform, hlast]
      simp [joinGroups_cons, List.foldl_append]

/-- Point evaluation of one applied line on the holdings map. -/
theorem applyLine_holding (st : BState) (l : TLine) (a : String) :
    (applyLine st l).1 a = st.1 a + cashDelta l a + shareDelta l a := by
  have key : ∀ (f : String → ℚ) (b : String),
      updF f l.currency (f l.currency + l.amount) b = f b + cashDelta l b := by
    intro f b
    unfold updF cashDelta
    by_cases hc : b = l.currency
    · rw [if_pos hc, if_pos hc.symm, hc]
    · rw [if_neg hc, if_neg (fun h => hc h.symm), add_zero]
  by_cases ht : isTrade l
  · simp only [applyLine, ht, if_true]
    set h := updF st.1 l.currency (st.1 l.currency + l.amount) with hh
    show (if a = l.isin then h l.isin + l.shares else h a) = _
    by_cases hi : a = l.isin
    · rw [if_pos hi, hi]
      have h1 : h l.isin = st.1 l.isin + cashDelta l l.isin := by
        rw [hh]; exact key st.1 l.isin
      have hs : shareDelta l l.isin = l.shares := by
        unfold shareDelta
        rw [if_pos ⟨ht, rfl⟩]
      rw [h1, hs]
    · rw [if_neg hi]
      have h1 : h a = st.1 a + cashDelta l a := by rw [hh]; exact key st.1 a
      have hs : shareDelta l a = 0 := by
        unfold shareDelta
        rw [if_neg (fun hcon => hi hcon.2.symm)]
      rw [h1, hs, add_zero]
  · simp only [applyLine, ht, Bool.false_eq_true, if_false]
    show updF st.1 l.currency (st.1 l.currency + l.amount) a = _
    rw [key]
    have hs : shareDelta l a = 0 := by
      unfold shareDelta
      rw [if_neg (fun hcon => ht hcon.1)]
    rw [hs, add_zero]

/-- Folding the whole statement adds exactly the direct delta sums. -/
theorem foldl_applyLine_holding :
    ∀ (lines : List TLine) (st : BState) (a : String),
      (lines.foldl applyLine st).1 a = st.1 a + directTotal lines a := by
  intro lines
  induction lines with
  | nil => intro st a; simp [directTotal]
  | cons l ls ih =>
    intro st a
    simp only [List.foldl_cons]
    rw [ih (applyLine st l) a, applyLine_holding]
    simp only [directTotal, List.map_cons, List.sum_cons]
    ring

/-- C1: for every classified statement (date-sorted, as produced by the
parser), replaying the full line set date-by-date through the cumulative
fold of `_built_portfolio` and reading the final per-asset holding yields
exactly the direct one-pass sum of the signed cash/share deltas: no double
counting and no drift. -/
theorem portfolio_roundtrip (lines : List TLine) (_hs : datesSorted lines = true)
    (a : String) : finalHoldings lines a = directTotal lines a := by
  cases hl : lines with
  | nil => simp [finalHoldings, builtSnapshots, groupByDate, snapshotsFrom, directTotal]
  | cons l ls =>
    have hne : groupByDate (l :: ls) ≠ [] := by
      intro h0
      have := joinGroups_groupByDate (l :: ls)
      rw [h0] at this
      simp [joinGroups] at this
    obtain ⟨d, hlast⟩ := snapshotsFrom_getLast (groupByDate (l :: ls)) initBState hne
    unfold finalHoldings builtSnapshots
    rw [hlast]
    rw [joinGroups_groupByDate]
    show (List.foldl applyLine initBState (l :: ls)).1 a = directTotal (l :: ls) a
    rw [foldl_applyLine_holding]
    simp [initBState]

/-- Witness for C1 on a two-line buy/sell statement. -/
theorem portfolio_roundtrip_witness :
    finalHoldings [⟨0, "EUR", "X", -500, 10, "buy"⟩, ⟨1, "EUR", "X", 500, -10, "sell"⟩] "EUR"
      = directTotal [⟨0, "EUR", "X", -500, 10, "buy"⟩, ⟨1, "EUR", "X", 500, -10, "sell"⟩] "EUR" :=
  portfolio_roundtrip _ (by decide) "EUR"

/-! ### Newey-West lemmas (C8) -/

theorem foldl_add_range' (f : ℕ → ℚ) :
    ∀ (len st : ℕ) (acc : ℚ),
      (List.range' st len).foldl (fun a t => a + f t) acc
        = acc + ∑ t ∈ Finset.Ico st (st + len), f t := by
  intro len
  induction len with
  | zero => intro st acc; simp
  | succ n ih =>
    intro st acc
    rw [List.range'_succ]
    simp only [List.foldl_cons]
    rw [ih (st + 1) (acc + f st)]
    rw [Finset.sum_eq_sum_Ico_succ_bot (by omega : st < st + (n + 1)) f]
    have harith : st + 1 + n = st + (n + 1) := by omega
    rw [harith, add_assoc]

theorem foldl_add_range (H : ℕ → ℚ) (n : ℕ) (acc : ℚ) :
    (List.range n).foldl (fun a l => a + H l) acc = acc + ∑ l ∈ Finset.range n, H l := by
  rw [List.range_eq_range', foldl_add_range' H n 0 acc, Finset.range_eq_Ico]
  simp

/-- The double accumulation loop of `nw_std` equals the closed
Bartlett-weighted double sum. -/
theorem nwVarLoop_eq_spec (s : List ℚ) (L : ℕ) : nwVarLoop s L = nwVarSpec s L := by
  unfold nwVarLoop nwVarSpec
  have hstep : (fun (acc : ℚ) (l : ℕ) =>
      (List.range' l (s.length - l)).foldl
        (fun a t => a + bartlett L l * residAt s t * residAt s (t - l)) acc)
      = fun acc l => acc +
          bartlett L l * ∑ t ∈ Finset.Ico l s.length, residAt s t * residAt s (t - l) := by
    funext acc l
    rw [foldl_add_range']
    congr 1
    rw [Finset.mul_sum]
    have hico : Finset.Ico l (l + (s.length - l)) = Finset.Ico l s.length := by
      by_cases hl : l ≤ s.length
      · congr 1
        omega
      · rw [Finset.Ico_eq_empty (by omega), Finset.Ico_eq_empty (by omega)]
    rw [hico]
    exact Finset.sum_congr rfl (fun t _ => by ring)
  rw [hstep, foldl_add_range]
  simp

/-- C8: `nw_std` computes the Bartlett-kernel Newey-West estimator with
the automatic lag `nwLag T = ⌈4 (T/100)^(2/9)⌉`, weights `κ_0 = 1`,
`κ_ℓ = 2(1 − ℓ/(L+1))`, one common denominator `T − ddof` over the double
sum `Σ_ℓ κ_ℓ Σ_t (r_t − μ)(r_{t−ℓ} − μ)` and a final `√(· · ann_freq)`;
`nw_tstat` is `mean / nw_std(ann_freq = 1) · √T`. -/
theorem nw_std_spec (s : List ℚ) (a d : ℕ) :
    nw_std s a d
      = Real.sqrt ((nwVarSpec s (nwLag s.length) / ((s.length : ℚ) - (d : ℚ)) * (a : ℚ) : ℚ))
  ∧ nw_tstat s d = (qmean s : ℝ) / nw_std s 1 d * Real.sqrt (s.length : ℝ) := by
  constructor
  · unfold nw_std
    rw [nwVarLoop_eq_spec]
  · rfl

/-! ### Split-row repair lemmas (C3) -/

theorem idxFrom_append (a b : List RawLine) :
    ∀ n, idxFrom n (a ++ b) = idxFrom n a ++ idxFrom (n + a.length) b := by
  induction a with
  | nil => intro n; simp [idxFrom]
  | cons r rs ih =>
    intro n
    show (n, r) :: idxFrom (n + 1) (rs ++ b)
      = (n, r) :: (idxFrom (n + 1) rs ++ idxFrom (n + (r :: rs).length) b)
    rw [ih (n + 1)]
    have h2 : n + 1 + rs.length = n + (r :: rs).length := by
      simp only [List.length_cons]
      omega
    rw [h2]

theorem filter_idxFrom_dated (pre : List RawLine)
    (hpre : ∀ r ∈ pre, r.date.isSome = true) :
    ∀ n, (idxFrom n pre).filter (fun p => p.2.date.isNone) = [] := by
  induction pre with
  | nil => intro n; rfl
  | cons r rs ih =>
    intro n
    have hr : r.date.isSome = true := hpre r (by simp)
    have hn : r.date.isNone = false := by
      cases hd : r.date
      · rw [hd] at hr; cases hr
      · rfl
    simp only [idxFrom, List.filter_cons, hn, Bool.false_eq_true, if_false]
    exact ih (fun q hq => hpre q (by simp [hq])) (n + 1)

theorem modAt_length_append {α : Type} (f : α → α) (pre : List α) (x : α) (rest : List α) :
    modAt f pre.length (pre ++ x :: rest) = pre ++ f x :: rest := by
  induction pre with
  | nil => rfl
  | cons p ps ih => simp [modAt, ih]

/-- C3 (amended): a single continuation row (empty date cell) directly
following a dated row is merged into that row by field-wise string
concatenation and then dropped, so its description ends up concatenated
onto the preceding row's description.  (With two or more consecutive
continuations the later ones are appended to the already-dropped first
continuation instead, losing their content — see the counterexample.) -/
theorem row_repair_single (pre post : List RawLine) (x c : RawLine)
    (hpre : ∀ r ∈ pre, r.date.isSome = true) (hpost : ∀ r ∈ post, r.date.isSome = true)
    (hx : x.date.isSome = true) (hc : c.date = none) :
    repairRows (pre ++ x :: c :: post) = pre ++ addRow x (fillRow c) :: post
  ∧ (∀ sx sc, x.description = some sx → c.description = some sc →
      (addRow x (fillRow c)).description = some (sx ++ sc)) := by
  constructor
  · have hxn : x.date.isNone = false := by
      cases hd : x.date
      · rw [hd] at hx; cases hx
      · rfl
    have hcn : c.date.isNone = true := by rw [hc]; rfl
    have hcont : contRows (pre ++ x :: c :: post) = [(pre.length + 1, c)] := by
      unfold contRows
      rw [idxFrom_append, List.filter_append, filter_idxFrom_dated pre hpre 0]
      simp only [idxFrom, List.filter_cons, hxn, hcn, Bool.false_eq_true, if_false,
        if_true, List.nil_append, Nat.zero_add]
      rw [filter_idxFrom_dated post hpost (pre.length + 2)]
    unfold repairRows
    rw [hcont]
    simp only [List.foldl_cons, List.foldl_nil]
    unfold repairStep
    rw [if_neg (by omega : ¬ pre.length + 1 = 0)]
    have h1 : pre.length + 1 - 1 = pre.length := by omega
    rw [h1, modAt_length_append, List.filter_append]
    rw [List.filter_eq_self.mpr hpre]
    have hmerged : (addRow x (fillRow c)).date.isSome = true := by
      obtain ⟨s, hs⟩ := Option.isSome_iff_exists.mp hx
      show (addField x.date (fillRow c).date).isSome = true
      rw [hs]
      rfl
    have hcsome : c.date.isSome = false := by rw [hc]; rfl
    simp only [List.filter_cons, hmerged, hcsome, Bool.false_eq_true, if_false, if_true]
    rw [List.filter_eq_self.mpr hpost]
  · intro sx sc hsx hsc
    show addField x.description (fillRow c).description = some (sx ++ sc)
    rw [hsx]
    show addField (some sx) (some (c.description.getD "")) = some (sx ++ sc)
    rw [hsc]
    rfl

/-- Witness for C3 (amended): a two-row ledger is repaired into one merged
row with the concatenated description. -/
theorem row_repair_single_witness :
    repairRows [exFullRow, exContB] = [addRow exFullRow (fillRow exContB)]
  ∧ (addRow exFullRow (fillRow exContB)).description = some ("A" ++ "B") := by
  have h := row_repair_single [] [] exFullRow exContB
    (by decide) (by decide) (by decide) (by decide)
  exact ⟨h.1, h.2 "A" "B" (by decide) (by decide)⟩

/-- C3 counterexample: with two consecutive continuation rows the second
continuation's fields are appended to the first continuation, which is
itself then dropped, so its description `"C"` is lost: the single
surviving row reads `"AB"`, not the full concatenation `"ABC"`. -/
theorem row_repair_multi_cont_loses_content :
    (repairRows exC3).map (fun r => r.description) = [some "AB"]
  ∧ (repairRows exC3).map (fun r => r.description) ≠ [some "ABC"] := by
  constructor
  · decide
  · decide

/-! ### Formatted-statement membership lemmas (C2, C7) -/

/-- Inversion of one formatted row: its description is the raw one, its
type is the classifier's output, its shares are the (sell-negated) regex
extraction, and a description without a price match leaves `price`
missing. -/
theorem rowToFmt_spec (r : RawLine) (l : FmtLine) (h : rowToFmt r = some l) :
    l.description = r.description
  ∧ l.lineType = classifyLine (toPyStr r.description)
  ∧ l.shares = (if classifyLine (toPyStr r.description) = "sell"
      then ((match r.description with
             | none => (none : Option ℕ)
             | some ds => extractShares ds.toList).map (fun n => (n : ℚ))).map (fun x => -x)
      else (match r.description with
            | none => (none : Option ℕ)
            | some ds => extractShares ds.toList).map (fun n => (n : ℚ)))
  ∧ ((match r.description with
      | none => (none : Option (List Char))
      | some ds => extractPriceTok ds.toList) = none → l.price = none) := by
  simp only [rowToFmt, Option.bind_eq_bind, Option.bind_eq_some, Option.pure_def,
    Option.some.injEq] at h
  obtain ⟨dstr, hd, tstr, htm, k, hk, dk, hdk, fx, hfx, am, ham, bal, hbal, price, hpr, hl⟩ := h
  subst hl
  refine ⟨rfl, rfl, rfl, ?_⟩
  intro hnone
  show price = none
  cases hdesc : r.description with
  | none =>
    rw [hdesc] at hpr
    injection hpr with h2
    exact h2.symm
  | some ds =>
    rw [hdesc] at hpr hnone
    have hnone2 : extractPriceTok ds.toList = none := hnone
    have hpr2 : (match extractPriceTok ds.toList with
      | none => some (none : Option ℚ)
      | some tok =>
        match parsePyFloat (commaToDot (String.mk tok)) with
        | some q => some (some q)
        | none => none) = some price := hpr
    rw [hnone2] at hpr2
    injection hpr2 with h2
    exact h2.symm

theorem mem_rowsToFmt :
    ∀ (rows : List RawLine) (ls : List FmtLine), rowsToFmt rows = some ls →
      ∀ l ∈ ls, ∃ r ∈ rows, rowToFmt r = some l := by
  intro rows
  induction rows with
  | nil =>
    intro ls h l hl
    simp only [rowsToFmt, Option.some.injEq] at h
    subst h
    simp at hl
  | cons r rs ih =>
    intro ls h l hl
    simp only [rowsToFmt, Option.bind_eq_bind, Option.bind_eq_some, Option.pure_def,
      Option.some.injEq] at h
    obtain ⟨l0, hl0, t, ht, hcons⟩ := h
    subst hcons
    rcases List.mem_cons.mp hl with rfl | hmem
    · exact ⟨r, by simp, hl0⟩
    · obtain ⟨r2, hr2, hfr2⟩ := ih t ht l hmem
      exact ⟨r2, by simp [hr2], hfr2⟩

theorem mem_insertByKey (x l : FmtLine) :
    ∀ ys, l ∈ insertByKey x ys ↔ l = x ∨ l ∈ ys := by
  intro ys
  induction ys with
  | nil => simp [insertByKey]
  | cons y t ih =>
    by_cases hk : y.tsKey ≤ x.tsKey
    · simp only [insertByKey, if_pos hk, List.mem_cons, ih]
      tauto
    · simp only [insertByKey, if_neg hk, List.mem_cons]

theorem mem_sortByKey (l : FmtLine) : ∀ ls, l ∈ sortByKey ls ↔ l ∈ ls := by
  intro ls
  induction ls with
  | nil => simp [sortByKey]
  | cons x t ih =>
    show l ∈ insertByKey x (sortByKey t) ↔ _
    rw [mem_insertByKey, ih]
    simp [List.mem_cons]

/-- Every row of a successfully formatted statement is a formatted repaired
row and is not of type `other`. -/
theorem formatStatement_mem (raw : List RawLine) (out : List FmtLine) (l : FmtLine)
    (hf : formatStatement raw = some out) (hl : l ∈ out) :
    l.lineType ≠ "other" ∧ ∃ r ∈ repairRows raw, rowToFmt r = some l := by
  simp only [formatStatement, Option.bind_eq_bind, Option.bind_eq_some, Option.pure_def,
    Option.some.injEq] at hf
  obtain ⟨parsed, hp, hout⟩ := hf
  subst hout
  have hl2 := List.mem_filter.mp hl
  constructor
  · intro hother
    have hb := hl2.2
    rw [hother] at hb
    simp at hb
  · exact mem_rowsToFmt _ _ hp l ((mem_sortByKey l parsed).mp hl2.1)

/-- C2 (amended): rows whose description classifies as `other` are
excluded from the formatted statement returned by the parser (and hence
from everything downstream, including portfolio construction) — they are
not retained for display. -/
theorem statement_excludes_other (raw : List RawLine) :
    ((formatStatement raw).getD []).all (fun l => !(l.lineType == "other")) = true := by
  cases hf : formatStatement raw with
  | none => rfl
  | some out =>
    simp only [Option.getD_some]
    rw [List.all_eq_true]
    intro l hl
    have h := (formatStatement_mem raw out l hf hl).1
    simpa using h

/-- C2 counterexample: a ledger with a deposit row and an unclassifiable
row formats to a statement containing only the deposit row — the `other`
row is dropped, not retained. -/
theorem other_row_dropped_example :
    (formatStatement exC2).map (fun ls => ls.map (fun l => l.description))
      = some [some "iDEAL Deposit"]
  ∧ classifyLine "Some Unknown Thing" = "other" := by
  exact ⟨by decide, by decide⟩

/-- C7 (amended): for every retained formatted row, the share quantity is
the number following a `Koop`/`Verkoop` keyword (negated on sell rows) and
the price the number following the `@` marker; when either regex finds no
token the corresponding field is left missing (NaN) and the row is kept —
the load does not fail.  (Only a present-but-unparsable price token aborts
the load.) -/
theorem share_price_extraction (raw : List RawLine) (out : List FmtLine) (l : FmtLine)
    (hf : formatStatement raw = some out) (hl : l ∈ out) :
    (∀ ds, l.description = some ds →
      ((extractShares ds.toList = none → l.shares = none)
       ∧ (∀ n, extractShares ds.toList = some n →
            l.shares = some (if l.lineType = "sell" then -(n : ℚ) else (n : ℚ)))
       ∧ (extractPriceTok ds.toList = none → l.price = none)))
  ∧ (l.description = none → l.shares = none) := by
  obtain ⟨-, r, hr, hfr⟩ := formatStatement_mem raw out l hf hl
  obtain ⟨hdesc, hty, hshares, hprice⟩ := rowToFmt_spec r l hfr
  constructor
  · intro ds hds
    have hrd : r.description = some ds := by rw [← hdesc, hds]
    have hred : (match some ds with
      | none => (none : Option ℕ)
      | some ds => extractShares ds.toList) = extractShares ds.toList := rfl
    have hts : toPyStr (some ds) = ds := rfl
    refine ⟨?_, ?_, ?_⟩
    · intro hnone
      rw [hshares, hrd, hred, hnone]
      split <;> rfl
    · intro n hn
      rw [hshares, hrd, hred, hn, hts]
      have hty2 : l.lineType = classifyLine ds := by
        rw [hty, hrd, hts]
      rw [hty2]
      by_cases hc : classifyLine ds = "sell"
      · rw [if_pos hc, if_pos hc]
        rfl
      · rw [if_neg hc, if_neg hc]
        rfl
    · intro hnone
      apply hprice
      rw [hrd]
      exact hnone
  · intro hnone
    have hrd : r.description = none := by rw [← hdesc, hnone]
    rw [hshares, hrd]
    split <;> rfl

/-- C7 counterexample: a buy row whose description has no digit quantity
after `Koop` does not abort the load — the statement is produced with the
row retained, its `shares` field missing and its price extracted. -/
theorem missing_share_token_no_error :
    formatStatement exC7 = some [exC7Line]
  ∧ exC7Line.lineType = "buy" ∧ exC7Line.shares = none
  ∧ exC7Line.price = some (8501 / 100 : ℚ) := by
  exact ⟨by decide, by decide, by decide, by decide⟩

/-- Witness for C7 (amended) on the concrete no-quantity buy row. -/
theorem share_price_extraction_witness : exC7Line.shares = none :=
  ((share_price_extraction exC7 [exC7Line] exC7Line (by decide) (by decide)).1
    "Koop Vanguard FTSE All-World @ 85,01" (by decide)).1 (by decide)

/-! ### Forward-fill and zero-drop lemmas (C5) -/

theorem lastLE_le :
    ∀ (ss : List (ℕ × BState)) (d : ℕ) (s : ℕ × BState),
      lastLE d ss = some s → s.1 ≤ d := by
  intro ss
  induction ss with
  | nil => intro d s h; cases h
  | cons x rest ih =>
    intro d s h
    simp only [lastLE] at h
    cases hr : lastLE d rest with
    | some r =>
      rw [hr] at h
      injection h with h2
      subst h2
      exact ih d _ hr
    | none =>
      rw [hr] at h
      by_cases hx : x.1 ≤ d
      · rw [if_pos hx] at h
        injection h with h2
        subst h2
        exact hx
      · rw [if_neg hx] at h
        cases h

theorem touchedBy_mono (lines : List TLine) (a : String) (d1 d2 : ℕ) (h12 : d1 ≤ d2)
    (h : touchedBy lines d1 a = true) : touchedBy lines d2 a = true := by
  simp only [touchedBy, List.any_eq_true, Bool.and_eq_true, decide_eq_true_eq] at h ⊢
  obtain ⟨l, hl, hdate, htouch⟩ := h
  exact ⟨l, hl, by omega, htouch⟩

theorem datesSorted_tail :
    ∀ (a : TLine) (ls : List TLine), datesSorted (a :: ls) = true → datesSorted ls = true := by
  intro a ls h
  cases ls with
  | nil => rfl
  | cons b t =>
    simp only [datesSorted, Bool.and_eq_true] at h
    exact h.2

theorem datesSorted_head_le :
    ∀ (ls : List TLine) (a : TLine), datesSorted (a :: ls) = true →
      ∀ x ∈ ls, a.date ≤ x.date := by
  intro ls
  induction ls with
  | nil => intro a h x hx; simp at hx
  | cons b t ih =>
    intro a h x hx
    simp only [datesSorted, Bool.and_eq_true, decide_eq_true_eq] at h
    rcases List.mem_cons.mp hx with rfl | hx2
    · exact h.1
    · exact le_trans h.1 (ih b h.2 x hx2)

theorem groupByDate_nil_eq (l : TLine) (ls : List TLine)
    (hg : groupByDate ls = []) : groupByDate (l :: ls) = [(l.date, [l])] := by
  have heq : groupByDate (l :: ls) =
      match groupByDate ls with
      | [] => [(l.date, [l])]
      | (d, g) :: rest =>
        if l.date = d then (d, l :: g) :: rest else (l.date, [l]) :: (d, g) :: rest := rfl
  rw [heq, hg]

theorem groupByDate_cons_eq (l : TLine) (ls : List TLine) (d : ℕ) (grp : List TLine)
    (rest : List (ℕ × List TLine)) (hg : groupByDate ls = (d, grp) :: rest) :
    groupByDate (l :: ls) =
      if l.date = d then (d, l :: grp) :: rest
      else (l.date, [l]) :: (d, grp) :: rest := by
  have heq : groupByDate (l :: ls) =
      match groupByDate ls with
      | [] => [(l.date, [l])]
      | (d, g) :: rest =>
        if l.date = d then (d, l :: g) :: rest else (l.date, [l]) :: (d, g) :: rest := rfl
  rw [heq, hg]

theorem groupByDate_head_date (l : TLine) (ls : List TLine) :
    ∃ g rest, groupByDate (l :: ls) = (l.date, g) :: rest := by
  cases hg : groupByDate ls with
  | nil => exact ⟨[l], [], groupByDate_nil_eq l ls hg⟩
  | cons g rest =>
    obtain ⟨d, grp⟩ := g
    have he := groupByDate_cons_eq l ls d grp rest hg
    by_cases hd : l.date = d
    · subst hd
      rw [if_pos rfl] at he
      exact ⟨l :: grp, rest, he⟩
    · rw [if_neg hd] at he
      exact ⟨[l], (d, grp) :: rest, he⟩

theorem groupByDate_mem_date :
    ∀ (lines : List TLine) (g : ℕ × List TLine), g ∈ groupByDate lines →
      ∀ t ∈ g.2, t.date = g.1 := by
  intro lines
  induction lines with
  | nil => intro g hg; cases hg
  | cons l ls ih =>
    intro g hg t ht
    cases hgls : groupByDate ls with
    | nil =>
      rw [groupByDate_nil_eq l ls hgls] at hg
      simp only [List.mem_singleton] at hg
      subst hg
      simp only [List.mem_singleton] at ht
      subst ht
      rfl
    | cons g0 rest =>
      obtain ⟨d, grp⟩ := g0
      rw [groupByDate_cons_eq l ls d grp rest hgls] at hg
      by_cases hd : l.date = d
      · rw [if_pos hd] at hg
        rcases List.mem_cons.mp hg with rfl | hg2
        · rcases List.mem_cons.mp ht with rfl | ht2
          · exact hd
          · exact ih (d, grp) (by rw [hgls]; exact List.mem_cons_self _ _) t ht2
        · exact ih g (by rw [hgls]; exact List.mem_cons_of_mem _ hg2) t ht
      · rw [if_neg hd] at hg
        rcases List.mem_cons.mp hg with rfl | hg2
        · simp only [List.mem_singleton] at ht
          subst ht
          rfl
        · exact ih g (by rw [hgls]; exact hg2) t ht

theorem groupByDate_pairwise :
    ∀ lines : List TLine, datesSorted lines = true →
      List.Pairwise (fun g h : ℕ × List TLine => g.1 ≤ h.1) (groupByDate lines) := by
  intro lines
  induction lines with
  | nil => intro h; exact List.Pairwise.nil
  | cons l ls ih =>
    intro hs
    have ihls := ih (datesSorted_tail l ls hs)
    cases hgls : groupByDate ls with
    | nil =>
      rw [groupByDate_nil_eq l ls hgls]
      simp
    | cons g0 rest =>
      obtain ⟨d, grp⟩ := g0
      rw [groupByDate_cons_eq l ls d grp rest hgls]
      rw [hgls] at ihls
      have hpw := List.pairwise_cons.mp ihls
      have hld : l.date ≤ d := by
        cases hls2 : ls with
        | nil => rw [hls2] at hgls; cases hgls
        | cons m t =>
          obtain ⟨g2, rest2, hg2⟩ := groupByDate_head_date m t
          rw [hls2] at hgls
          rw [hg2] at hgls
          have hdm : d = m.date := by
            injection hgls with h1 _
            exact (congrArg Prod.fst h1).symm
          rw [hdm]
          exact datesSorted_head_le ls l hs m (by rw [hls2]; exact List.mem_cons_self _ _)
      by_cases hd : l.date = d
      · rw [if_pos hd]
        exact List.pairwise_cons.mpr ⟨fun b hb => hpw.1 b hb, hpw.2⟩
      · rw [if_neg hd]
        refine List.pairwise_cons.mpr ⟨?_, ihls⟩
        intro b hb
        rcases List.mem_cons.mp hb with rfl | hb2
        · exact hld
        · exact le_trans hld (hpw.1 b hb2)

theorem line_in_group (lines : List TLine) (t : TLine) (ht : t ∈ lines) :
    ∃ g ∈ groupByDate lines, g.1 = t.date := by
  have hj : t ∈ joinGroups (groupByDate lines) := by
    rw [joinGroups_groupByDate]
    exact ht
  simp only [joinGroups, List.mem_flatten, List.mem_map] at hj
  obtain ⟨l2, ⟨g, hg, hgl⟩, htl⟩ := hj
  subst hgl
  exact ⟨g, hg, (groupByDate_mem_date lines g hg t htl).symm⟩

theorem lastLE_snapshots_none :
    ∀ (gs : List (ℕ × List TLine)) (st : BState) (d : ℕ),
      lastLE d (snapshotsFrom st gs) = none → ∀ g ∈ gs, ¬ g.1 ≤ d := by
  intro gs
  induction gs with
  | nil => intro st d _ g hg; cases hg
  | cons g0 rest ih =>
    intro st d h g hg
    obtain ⟨d0, grp0⟩ := g0
    have hform : snapshotsFrom st ((d0, grp0) :: rest) =
        (d0, grp0.foldl applyLine st) :: snapshotsFrom (grp0.foldl applyLine st) rest := rfl
    rw [hform] at h
    simp only [lastLE] at h
    cases hS : lastLE d (snapshotsFrom (grp0.foldl applyLine st) rest) with
    | some r => rw [hS] at h; cases h
    | none =>
      rw [hS] at h
      by_cases hd0 : d0 ≤ d
      · rw [if_pos hd0] at h; cases h
      · rcases List.mem_cons.mp hg with rfl | hg2
        · exact hd0
        · exact ih (grp0.foldl applyLine st) d hS g hg2

theorem lastLE_snapshots_some :
    ∀ (gs : List (ℕ × List TLine)) (st : BState) (d : ℕ) (s : ℕ × BState),
      List.Pairwise (fun g h : ℕ × List TLine => g.1 ≤ h.1) gs →
      lastLE d (snapshotsFrom st gs) = some s →
      s.1 ≤ d ∧ (∃ g ∈ gs, g.1 = s.1) ∧ (∀ g ∈ gs, g.1 ≤ d → g.1 ≤ s.1) ∧
      s.2 = (joinGroups (gs.filter (fun g => decide (g.1 ≤ d)))).foldl applyLine st := by
  intro gs
  induction gs with
  | nil => intro st d s _ h; cases h
  | cons g0 rest ih =>
    intro st d s hpw h
    obtain ⟨d0, grp0⟩ := g0
    have hpw2 := List.pairwise_cons.mp hpw
    have hform : snapshotsFrom st ((d0, grp0) :: rest) =
        (d0, grp0.foldl applyLine st) :: snapshotsFrom (grp0.foldl applyLine st) rest := rfl
    rw [hform] at h
    simp only [lastLE] at h
    cases hS : lastLE d (snapshotsFrom (grp0.foldl applyLine st) rest) with
    | some r =>
      rw [hS] at h
      injection h with h2
      subst h2
      obtain ⟨hrd, ⟨g1, hg1, hg1d⟩, hmax, hfold⟩ :=
        ih (grp0.foldl applyLine st) d r hpw2.2 hS
      have hd0s : d0 ≤ r.1 := by
        have := hpw2.1 g1 hg1
        omega
      have hd0d : d0 ≤ d := le_trans hd0s hrd
      refine ⟨hrd, ⟨g1, List.mem_cons_of_mem _ hg1, hg1d⟩, ?_, ?_⟩
      · intro g hg hgd
        rcases List.mem_cons.mp hg with rfl | hg2
        · exact hd0s
        · exact hmax g hg2 hgd
      · rw [List.filter_cons]
        simp only [decide_eq_true_eq]
        rw [if_pos (by simpa using hd0d)]
        rw [joinGroups_cons, List.foldl_append]
        exact hfold
    | none =>
      rw [hS] at h
      by_cases hd0 : d0 ≤ d
      · rw [if_pos hd0] at h
        injection h with h2
        subst h2
        have hnone := lastLE_snapshots_none rest (grp0.foldl applyLine st) d hS
        refine ⟨hd0, ⟨(d0, grp0), List.mem_cons_self _ _, rfl⟩, ?_, ?_⟩
        · intro g hg hgd
          rcases List.mem_cons.mp hg with rfl | hg2
          · exact le_refl _
          · exact absurd hgd (hnone g hg2)
        · rw [List.filter_cons]
          simp only [decide_eq_true_eq]
          rw [if_pos (by simpa using hd0)]
          have hrest : rest.filter (fun g => decide (g.1 ≤ d)) = [] := by
            rw [List.filter_eq_nil_iff]
            intro g hg
            simp only [decide_eq_true_eq]
            exact hnone g hg
          rw [hrest, joinGroups_cons]
          simp [joinGroups]
      · rw [if_neg hd0] at h
        cases h

/-- Forward-filled cells exist exactly for the assets already touched by a
transaction dated on or before the calendar day (statement sorted). -/
theorem ffill_isSome_iff (lines : List TLine) (hs : datesSorted lines = true)
    (d : ℕ) (a : String) :
    (∃ v, ffillHolding lines d a = some v) ↔ touchedBy lines d a = true := by
  constructor
  · rintro ⟨v, hv⟩
    unfold ffillHolding at hv
    cases hLE : lastLE d (builtSnapshots lines) with
    | none => rw [hLE] at hv; cases hv
    | some s =>
      rw [hLE] at hv
      have hv2 : (if touchedBy lines s.1 a = true
          then some (s.2.1 a) else none) = some v := hv
      by_cases htch : touchedBy lines s.1 a = true
      · exact touchedBy_mono lines a s.1 d (lastLE_le _ d s hLE) htch
      · rw [if_neg htch] at hv2
        cases hv2
  · intro htch
    have hex : ∃ t ∈ lines, t.date ≤ d ∧ touches t a = true := by
      simpa [touchedBy, List.any_eq_true, Bool.and_eq_true, decide_eq_true_eq] using htch
    obtain ⟨t, ht, htd, htt⟩ := hex
    obtain ⟨g, hg, hgd⟩ := line_in_group lines t ht
    cases hLE : lastLE d (builtSnapshots lines) with
    | none =>
      have hno := lastLE_snapshots_none (groupByDate lines) initBState d hLE g hg
      omega
    | some s =>
      obtain ⟨hsd, hex2, hmax, hfold⟩ :=
        lastLE_snapshots_some (groupByDate lines) initBState d s
          (groupByDate_pairwise lines hs) hLE
      have hts : t.date ≤ s.1 := by
        have := hmax g hg (by omega)
        omega
      have htch2 : touchedBy lines s.1 a = true := by
        simp only [touchedBy, List.any_eq_true, Bool.and_eq_true, decide_eq_true_eq]
        exact ⟨t, ht, hts, htt⟩
      refine ⟨s.2.1 a, ?_⟩
      unfold ffillHolding
      rw [hLE]
      show (if touchedBy lines s.1 a = true then some (s.2.1 a) else none) = some (s.2.1 a)
      rw [if_pos htch2]

/-- C5 (amended): in the reindexed, forward-filled, zero-dropped daily
portfolio every retained `(date, asset)` row has a present, non-zero
forward-filled holding and lies in the calendar; and between any two
retained dates of the same asset every calendar day either is retained or
has a forward-filled holding of exactly zero — gaps occur exactly on
zero-holding days, so an asset whose holding nets to zero disappears until
a new transaction recreates it (the rows are NOT gap-free from first
appearance to last non-zero day in general). -/
theorem portfolio_daily_runs (lines : List TLine) (y : ℕ)
    (hs : datesSorted lines = true) :
    (∀ d a, inPortfolio lines y d a = true →
       ∃ v, ffillHolding lines d a = some v ∧ v ≠ 0 ∧ firstDate lines ≤ d ∧ d ≤ y)
  ∧ (∀ a d1 d d2, inPortfolio lines y d1 a = true → inPortfolio lines y d2 a = true →
       d1 ≤ d → d ≤ d2 →
       inPortfolio lines y d a = true ∨ ffillHolding lines d a = some 0) := by
  have hinp : ∀ d a, inPortfolio lines y d a = true ↔
      (firstDate lines ≤ d ∧ d ≤ y ∧ ∃ v, ffillHolding lines d a = some v ∧ v ≠ 0) := by
    intro d a
    unfold inPortfolio
    constructor
    · intro h
      simp only [Bool.and_eq_true, decide_eq_true_eq] at h
      obtain ⟨⟨h1, h2⟩, h3⟩ := h
      cases hff : ffillHolding lines d a with
      | none => rw [hff] at h3; cases h3
      | some v =>
        rw [hff] at h3
        simp only [decide_eq_true_eq] at h3
        exact ⟨h1, h2, v, rfl, h3⟩
    · rintro ⟨h1, h2, v, hv, hv0⟩
      simp only [Bool.and_eq_true, decide_eq_true_eq]
      refine ⟨⟨h1, h2⟩, ?_⟩
      rw [hv]
      simp [hv0]
  constructor
  · intro d a h
    obtain ⟨h1, h2, v, hv, hv0⟩ := (hinp d a).mp h
    exact ⟨v, hv, hv0, h1, h2⟩
  · intro a d1 d d2 h1 h2 hd1 hd2
    obtain ⟨hf1, hy1, v1, hv1, hv10⟩ := (hinp d1 a).mp h1
    obtain ⟨hf2, hy2, v2, hv2, hv20⟩ := (hinp d2 a).mp h2
    have htch : touchedBy lines d a = true := by
      have ht1 : touchedBy lines d1 a = true :=
        (ffill_isSome_iff lines hs d1 a).mp ⟨v1, hv1⟩
      exact touchedBy_mono lines a d1 d hd1 ht1
    obtain ⟨v, hv⟩ := (ffill_isSome_iff lines hs d a).mpr htch
    by_cases hv0 : v = 0
    · right
      rw [hv, hv0]
    · left
      exact (hinp d a).mpr ⟨by omega, by omega, v, hv, hv0⟩

/-- Witness for C5 (amended): on the buy/sell-all/re-buy statement, day 1
(between the retained days 0 and 2) is either retained or has holding
exactly zero. -/
theorem portfolio_daily_runs_witness :
    inPortfolio exC5 2 1 "X" = true ∨ ffillHolding exC5 1 "X" = some 0 :=
  (portfolio_daily_runs exC5 2 (by decide)).2 "X" 0 1 2
    (by decide) (by decide) (by decide) (by decide)

/-- C5 counterexample: asset `X` first appears on day 0 and its last
non-zero-holding day is day 2, yet day 1 (holding exactly zero after the
full sale) has no row — the `(date, asset)` rows are not a gap-free run
over the calendar from first appearance to last non-zero day. -/
theorem zero_holding_gap_example :
    inPortfolio exC5 2 0 "X" = true ∧ inPortfolio exC5 2 2 "X" = true
  ∧ inPortfolio exC5 2 1 "X" = false
  ∧ ffillHolding exC5 1 "X" = some 0 := by
  exact ⟨by decide, by decide, by decide, by decide⟩
